import Mathlib

/-!
Shallow embedding of the Juan Lab wiki scraper
(`scripts/scrape_juanlab.py` and `juanlab-astro/scripts/scrape_juanlab.py`).

The Python scripts walk a parsed HTML document and extract structured
records (news items, research highlights, projects, a people roster, a PI
profile) plus an image manifest.  We embed the text-processing utilities,
the pattern matchers and the per-topic extractors as executable Lean
functions over an explicit element-list model of the parsed document, and
prove the specification claims about them.

Modeling conventions:
* Python strings are Lean `String`s; the character-level helpers work on
  `List Char` (one entry per Unicode code point, as in Python).
* `unicodedata.normalize("NFKC", ·)` inside `clean_text` is modeled as the
  identity on the code-point data: every input considered in this
  development is already NFKC-normal (plain ASCII and CJK ideographs).
* Python regular expressions are embedded as hand-written matchers with
  the exact backtracking semantics of the concrete patterns used, on
  newline-free text (all call sites first apply `clean_text`, which
  collapses every whitespace run - including newlines - to a space).
* Python `list.sort(key=..., reverse=True)` (a stable descending sort) is
  modeled by the stable `List.insertionSort` with the corresponding
  greater-or-equal-on-keys comparison (all stable sorts of a list under a
  total transitive comparison agree, so the choice of stable algorithm is
  immaterial).
-/

namespace Juan

/-- Python regex whitespace class restricted to ASCII whitespace
(`\t \n \x0b \x0c \r` and space); the documents considered contain no
exotic Unicode whitespace. -/
def isWS (c : Char) : Bool :=
  c == ' ' || c == '\t' || c == '\n' || c == '\r' || c == '\x0b' || c == '\x0c'

/-- Collapse immediately repeated occurrences of character `d` to one. -/
def squeezeChar (d : Char) : List Char → List Char
  | [] => []
  | [c] => [c]
  | a :: b :: t =>
    if a == d && b == d then squeezeChar d (b :: t)
    else a :: squeezeChar d (b :: t)

/-- Drop leading and trailing whitespace. -/
def stripWS (l : List Char) : List Char :=
  ((l.dropWhile isWS).reverse.dropWhile isWS).reverse

/-- Embedding of `clean_text`: NFKC normalization (modeled as the identity
on the code points, see the file header), every whitespace run replaced by
a single space (`re.sub(r"\s+", " ", text)`), then stripped. -/
def cleanText (s : String) : String :=
  ⟨stripWS (squeezeChar ' ' (s.data.map (fun c => if isWS c then ' ' else c)))⟩

/-- Python `str.lower()` restricted to ASCII letters (CJK characters are
unaffected by `lower`, and the keyword tables are ASCII). -/
def lowerStr (s : String) : String :=
  ⟨s.data.map Char.toLower⟩

/-- Substring containment on character lists (Python `needle in hay`). -/
def containsSub : List Char → List Char → Bool
  | n, [] => n.isEmpty
  | n, c :: t => n.isPrefixOf (c :: t) || containsSub n t

/-- Python `needle in hay` for strings. -/
def strIn (needle hay : String) : Bool :=
  containsSub needle.data hay.data

/-- Python `s.startswith(p)`. -/
def pyStartsWith (s p : String) : Bool :=
  p.data.isPrefixOf s.data

/-- Python `s.endswith(p)`. -/
def pyEndsWith (s p : String) : Bool :=
  p.data.isSuffixOf s.data

/-- Python `str.strip()` (no argument: strip whitespace). -/
def pyStrip (s : String) : String :=
  ⟨stripWS s.data⟩

/-- Python `str.strip(chars)`: strip any of the given characters from both
ends. -/
def stripChars (cs : List Char) (s : String) : String :=
  ⟨((s.data.dropWhile (cs.contains ·)).reverse.dropWhile (cs.contains ·)).reverse⟩

/-- Python `str.split(sep)` for a separator that is the nonempty list
`s0 :: sr`, on character lists: non-overlapping, left-to-right, keeping
empty parts.  The `Nat` argument is recursion fuel (every call site
passes the list length, which always suffices since each step consumes at
least one character); the fuel makes the recursion structural, so the
kernel can evaluate it. -/
def pySplitF (s0 : Char) (sr : List Char) : Nat → List Char → List (List Char)
  | _, [] => [[]]
  | 0, l => [l]
  | fuel + 1, c :: cs =>
    if (s0 :: sr).isPrefixOf (c :: cs) then
      [] :: pySplitF s0 sr fuel (cs.drop sr.length)
    else
      match pySplitF s0 sr fuel cs with
      | [] => [[c]]
      | p :: ps => (c :: p) :: ps

/-- Python `s.split(sep)` for strings (the scripts only split on nonempty
separators). -/
def pySplit (sep s : String) : List String :=
  match sep.data with
  | [] => [s]
  | s0 :: sr => (pySplitF s0 sr s.data.length s.data).map (fun l => (⟨l⟩ : String))

/-- Python `s.replace(pat, repl, 1)` on character lists, pattern
`p0 :: pr`: replace the first occurrence only. -/
def pyReplace1NE (p0 : Char) (pr repl : List Char) : List Char → List Char
  | [] => []
  | c :: cs =>
    if (p0 :: pr).isPrefixOf (c :: cs) then repl ++ cs.drop pr.length
    else c :: pyReplace1NE p0 pr repl cs

/-- Python `s.replace(pat, repl, 1)` for strings (the scripts only use
nonempty patterns). -/
def pyReplaceFirst (pat repl s : String) : String :=
  match pat.data with
  | [] => s
  | p0 :: pr => ⟨pyReplace1NE p0 pr repl.data s.data⟩

/-- Python `s.replace(pat, repl)` on character lists, pattern `p0 :: pr`:
replace every non-overlapping occurrence, left to right.  Fueled like
`pySplitF` to keep the recursion structural. -/
def pyReplaceAllF (p0 : Char) (pr repl : List Char) : Nat → List Char → List Char
  | _, [] => []
  | 0, l => l
  | fuel + 1, c :: cs =>
    if (p0 :: pr).isPrefixOf (c :: cs) then
      repl ++ pyReplaceAllF p0 pr repl fuel (cs.drop pr.length)
    else c :: pyReplaceAllF p0 pr repl fuel cs

/-- Python `s.replace(pat, repl)` for strings (nonempty patterns only). -/
def pyReplaceAll (pat repl s : String) : String :=
  match pat.data with
  | [] => s
  | p0 :: pr => ⟨pyReplaceAllF p0 pr repl.data s.data.length s.data⟩

/-- Helper for `pyWords`: `acc` is the current token, reversed. -/
def pyWordsAux : List Char → List Char → List (List Char)
  | acc, [] => if acc.isEmpty then [] else [acc.reverse]
  | acc, c :: t =>
    if isWS c then
      if acc.isEmpty then pyWordsAux [] t else acc.reverse :: pyWordsAux [] t
    else pyWordsAux (c :: acc) t

/-- Python `str.split()` with no argument: whitespace-separated tokens,
no empty parts. -/
def pyWords (s : String) : List String :=
  (pyWordsAux [] s.data).map (fun l => (⟨l⟩ : String))

/-- Embedding of `re.search(r"[一-鿿]", s)`: does the string
contain a CJK Unified Ideograph? -/
def hasCJK (s : String) : Bool :=
  s.data.any (fun c => decide (0x4e00 ≤ c.toNat ∧ c.toNat ≤ 0x9fff))

/-- Numeric value of a list of ASCII decimal digits (Python `int` on a
digit string). -/
def digitsVal (l : List Char) : Nat :=
  l.foldl (fun a c => 10 * a + (c.toNat - 48)) 0

/-- Embedding of `re.search(r"(\d{2})", s)`: the first two consecutive
decimal digits, scanning left to right. -/
def findTwoDigits : List Char → Option (Char × Char)
  | a :: b :: t => if a.isDigit && b.isDigit then some (a, b) else findTwoDigits (b :: t)
  | _ => none

/-- Value of an ASCII hex digit. -/
def hexVal (c : Char) : Nat :=
  if c.isDigit then c.toNat - 48
  else if 97 ≤ c.toNat ∧ c.toNat ≤ 102 then c.toNat - 87
  else c.toNat - 55

/-- Is `c` an ASCII hex digit? -/
def isHexDigit (c : Char) : Bool :=
  c.isDigit || decide (97 ≤ c.toNat ∧ c.toNat ≤ 102) || decide (65 ≤ c.toNat ∧ c.toNat ≤ 70)

/-- Embedding of `urllib.parse.unquote`: decode `%XX` escapes byte-wise
(each decoded byte modeled as one code point; the manifests considered
contain only single-byte escapes), leaving malformed escapes intact. -/
def pctDecodeL : List Char → List Char
  | '%' :: h1 :: h2 :: t =>
    if isHexDigit h1 && isHexDigit h2 then
      Char.ofNat (16 * hexVal h1 + hexVal h2) :: pctDecodeL t
    else '%' :: pctDecodeL (h1 :: h2 :: t)
  | c :: t => c :: pctDecodeL t
  | [] => []

/-- Embedding of `urllib.parse.unquote` for strings. -/
def unquote (s : String) : String :=
  ⟨pctDecodeL s.data⟩

/-- Character map of `re.sub(r"[^a-z0-9]+", "-", ·)`: anything outside
`a-z0-9` becomes a dash. -/
def slugMap (c : Char) : Char :=
  if ('a' ≤ c ∧ c ≤ 'z') ∨ c.isDigit then c else '-'

/-- Embedding of `re.sub(r"[^a-z0-9]+", "-", s).strip("-")`: each run of
non-alphanumeric characters becomes a single dash, then dashes are
stripped from both ends. -/
def slugify (s : String) : String :=
  stripChars ['-'] ⟨squeezeChar '-' (s.data.map slugMap)⟩

/-! ## Document model

A parsed document (`BeautifulSoup` object) is modeled as the queries the
extractors perform on it: `content` is the recognized content root
(`soup.find("div", class_="dokuwiki") or soup.find("div",
id="dokuwiki__content")`) with its descendant elements listed in rendered
document order (`none` when neither content root exists), and `body`
lists every element of the whole document (used by
`soup.find_all("img")`).  Each element records its tag, its concatenated
raw text (`get_text()`), and the sub-queries the scripts perform on it:
the first descendant anchor and its optional `href` attribute, the first
descendant image source, and the `href` of the first `mailto:` anchor. -/

structure Elem where
  tag : String
  text : String
  anchorHref : Option (Option String) := none
  imgSrc : Option String := none
  mailtoHref : Option String := none
  attrSrc : String := ""
  attrAlt : String := ""
deriving DecidableEq

structure Soup where
  content : Option (List Elem)
  body : List Elem := []

/-- Embedding of `content.find_all([tags])`: the descendant elements whose
tag is in the list, in document order. -/
def findAll (tags : List String) (els : List Elem) : List Elem :=
  els.filter (fun e => tags.contains e.tag)

/-- `BASE_URL` from the script configuration. -/
def BASE_URL : String := "https://sbl.csie.org/JuanLab"

/-- The `scheme://host` part of an absolute URL. -/
def hostRoot (u : String) : String :=
  match pySplit "://" u with
  | sch :: rest :: _ => sch ++ "://" ++ (⟨rest.data.takeWhile (fun c => !(c == '/'))⟩ : String)
  | _ => u

/-- Everything up to and including the last `/` of a URL. -/
def dirOf (u : String) : String :=
  ⟨(u.data.reverse.dropWhile (fun c => !(c == '/'))).reverse⟩

/-- Embedding of `urllib.parse.urljoin(base, rel)` restricted to the URL
shapes the wiki produces (absolute URLs, scheme-relative `//`, host-
relative `/...`, query-only `?...` and plain relative references; no
dot-segment resolution). -/
def urljoinModel (base rel : String) : String :=
  if rel = "" then base
  else if pyStartsWith rel "http" then rel
  else if pyStartsWith rel "//" then "https:" ++ rel
  else if pyStartsWith rel "/" then hostRoot base ++ rel
  else if pyStartsWith rel "?" then base ++ rel
  else dirOf base ++ rel

/-- Embedding of `make_absolute_url`. -/
def make_absolute_url (href : String) : String :=
  if href = "" then ""
  else if pyStartsWith href "http" then href
  else urljoinModel (BASE_URL ++ "/") href

/-! ## Image reference collector (`extract_image_urls`) -/

structure ImageRec where
  url : String
  filename : String
  alt : String
deriving DecidableEq

/-- The acceptance test of `extract_image_urls`: the raw source path
contains the DokuWiki media-fetch indicator or ends in a known image
extension. -/
def imgAccepted (src : String) : Bool :=
  strIn "/lib/exe/fetch.php" src ||
    [".jpg", ".jpeg", ".png", ".gif", ".webp"].any (fun ext => pyEndsWith src ext)

/-- The filename recovery of `extract_image_urls`: from everything after
the (last) `media=` when present, URL-decoded, and otherwise from the last
path segment with the query string stripped, URL-decoded. -/
def imageFilename (src : String) : String :=
  if strIn "media=" src then unquote ((pySplit "media=" src).getLastD "")
  else unquote ((pySplit "?" ((pySplit "/" src).getLastD "")).headD "")

/-- One iteration of the `extract_image_urls` loop. -/
def imageStep (images : List ImageRec) (img : Elem) : List ImageRec :=
  let src := img.attrSrc
  if imgAccepted src then
    let src := if pyStartsWith src "http" then src else urljoinModel BASE_URL src
    images ++ [{ url := src, filename := imageFilename src, alt := img.attrAlt }]
  else images

/-- Embedding of `extract_image_urls`: scan every `img` element of the
whole document, keep the accepted ones, absolutize the source and record
url, recovered filename and alt text. -/
def extract_image_urls (soup : Soup) : List ImageRec :=
  (findAll ["img"] soup.body).foldl imageStep []

/-! ## News extractor (`extract_news`, identical in both script copies) -/

structure NewsItem where
  date : String
  year : Nat
  month : Nat
  title : String
  link : Option String
  category : String
deriving DecidableEq

/-- Embedding of the news-line pattern `^(\d{2})\.(\d{2})\s+(.+)$` on
newline-free text: two digits, a dot, two digits, at least one whitespace
character, then a nonempty title (with the regex backtracking semantics:
greedy `\s+` gives one character back when nothing would remain for
`.+`). -/
def newsLineMatch : List Char → Option (List Char × List Char × List Char)
  | y1 :: y2 :: '.' :: m1 :: m2 :: rest =>
    if y1.isDigit && y2.isDigit && m1.isDigit && m2.isDigit then
      let w := rest.takeWhile isWS
      let t := rest.drop w.length
      if !t.isEmpty then
        if !w.isEmpty then some ([y1, y2], [m1, m2], t) else none
      else if 2 ≤ w.length then some ([y1, y2], [m1, m2], [w.getLastD ' ']) else none
    else none
  | _ => none

/-- The century inference of `extract_news`: `2000 + year if year < 50
else 1900 + year`. -/
def inferYearNews (y : Nat) : Nat :=
  if y < 50 then 2000 + y else 1900 + y

/-- The keyword-based news category detection. -/
def newsCategory (title : String) : String :=
  let tl := lowerStr title
  if ["獎", "award", "榮獲", "得獎"].any (fun kw => strIn kw tl) then "award"
  else if ["發表", "paper", "publish", "journal"].any (fun kw => strIn kw tl) then "publication"
  else if ["徵", "recruit", "聘"].any (fun kw => strIn kw tl) then "recruitment"
  else "general"

/-- One iteration of the `extract_news` list-item loop. -/
def newsStep (items : List NewsItem) (li : Elem) : List NewsItem :=
  let text := cleanText li.text
  match newsLineMatch text.data with
  | none => items
  | some (ys, ms, titleL) =>
    let year := inferYearNews (digitsVal ys)
    let link : Option String :=
      match li.anchorHref with
      | some (some h) => if h = "" then none else some (make_absolute_url h)
      | _ => none
    let title : String := ⟨titleL⟩
    items ++ [{ date := toString year ++ "-" ++ (⟨ms⟩ : String),
                year := year, month := digitsVal ms, title := title,
                link := link, category := newsCategory title }]

/-- Descending comparison on the `(year, month)` sort key: `a` may precede
`b` exactly when `b`'s key is lexicographically at most `a`'s. -/
def newsGe (a b : NewsItem) : Bool :=
  decide (b.year < a.year) || (decide (b.year = a.year) && decide (b.month ≤ a.month))

/-- The descending sort order on news items as a relation. -/
def newsGeRel (a b : NewsItem) : Prop :=
  newsGe a b = true

instance : DecidableRel newsGeRel :=
  fun a b => instDecidableEqBool (newsGe a b) true

instance : IsTotal NewsItem newsGeRel :=
  ⟨by
    intro a b
    simp only [newsGeRel, newsGe, Bool.or_eq_true, Bool.and_eq_true, decide_eq_true_eq]
    omega⟩

instance : IsTrans NewsItem newsGeRel :=
  ⟨by
    intro a b c
    simp only [newsGeRel, newsGe, Bool.or_eq_true, Bool.and_eq_true, decide_eq_true_eq]
    omega⟩

/-- Embedding of `extract_news` from
`juanlab-astro/scripts/scrape_juanlab.py`: collect every list item of the
content root matching the news-line pattern, then sort descending by
`(year, month)` (stable, as Python's `list.sort(..., reverse=True)`). -/
def extract_news (soup : Soup) : List NewsItem :=
  match soup.content with
  | none => []
  | some content => ((findAll ["li"] content).foldl newsStep []).insertionSort newsGeRel

/-- One iteration of the `extract_news` loop as transcribed from
`scripts/scrape_juanlab.py` (the older script copy; the function is
textually identical there). -/
def newsStepV1 (items : List NewsItem) (li : Elem) : List NewsItem :=
  let text := cleanText li.text
  match newsLineMatch text.data with
  | none => items
  | some (ys, ms, titleL) =>
    let year := inferYearNews (digitsVal ys)
    let link : Option String :=
      match li.anchorHref with
      | some (some h) => if h = "" then none else some (make_absolute_url h)
      | _ => none
    let title : String := ⟨titleL⟩
    items ++ [{ date := toString year ++ "-" ++ (⟨ms⟩ : String),
                year := year, month := digitsVal ms, title := title,
                link := link, category := newsCategory title }]

/-- Embedding of `extract_news` from `scripts/scrape_juanlab.py` (the
older script copy). -/
def extract_news_v1 (soup : Soup) : List NewsItem :=
  match soup.content with
  | none => []
  | some content => ((findAll ["li"] content).foldl newsStepV1 []).insertionSort newsGeRel

/-! ## Research highlights extractor (`extract_research_highlights`) -/

structure Highlight where
  id : String
  title_zh : String
  title_en : String
  description : List String
  image : Option String
  publications : List String
deriving DecidableEq

/-- Traversal state of `extract_research_highlights`: the output list and
the currently open highlight, if any. -/
structure HState where
  highlights : List Highlight
  cur : Option Highlight
deriving DecidableEq

/-- The fixed topic markers that qualify a header to open a highlight. -/
def hlHasMarker (text : String) : Bool :=
  strIn "ATP" text || strIn "生醫大數據" text || strIn "Ectopic" text || strIn "Big Data" text

/-- The fresh highlight record built from a qualifying header text. -/
def mkHighlight (text : String) : Highlight :=
  { id := slugify (lowerStr text),
    title_zh := if hasCJK text then text else "",
    title_en := if hasCJK text then "" else text,
    description := [], image := none, publications := [] }

/-- The header branch of the `extract_research_highlights` loop.  It
mirrors the source exactly: the append of the previous highlight is
guarded by `current_highlight is None`, so it can never fire (the guarded
match below always produces `[]` in that branch). -/
def hlHeaderStep (text : String) (s : HState) (e : Elem) : HState :=
  if e.tag == "h1" || e.tag == "h2" || e.tag == "h3" then
    if strIn "Research Highlight" text then s
    else if s.cur.isNone && hlHasMarker text then
      { s with
        highlights := s.highlights ++ (match s.cur with | some h => [h] | none => []),
        cur := some (mkHighlight text) }
    else s
  else s

/-- The image branch of the loop: an anchor wrapping an image attaches
the image to the open highlight when its path mentions "highlight" or
"research". -/
def hlImageStep (s : HState) (e : Elem) : HState :=
  if e.tag == "a" then
    match e.imgSrc, s.cur with
    | some src, some h =>
      if strIn "highlight" (lowerStr src) || strIn "research" (lowerStr src) then
        { s with cur := some { h with image := some (make_absolute_url src) } }
      else s
    | _, _ => s
  else s

/-- The paragraph branch of the loop: paragraphs longer than 50 cleaned
characters extend the open highlight's description. -/
def hlParaStep (text : String) (s : HState) (e : Elem) : HState :=
  if e.tag == "p" then
    match s.cur with
    | some h =>
      if text ≠ "" ∧ 50 < text.length then
        { s with cur := some { h with description := h.description ++ [text] } }
      else s
    | none => s
  else s

/-- One iteration of the `extract_research_highlights` loop: the three
non-exclusive `if` blocks of the loop body, in source order. -/
def hlStep (s : HState) (e : Elem) : HState :=
  let text := if e.tag == "img" then "" else cleanText e.text
  hlParaStep text (hlImageStep (hlHeaderStep text s e) e) e

/-- Embedding of `extract_research_highlights`: fold the traversal state
over the whitelisted elements of the content root; a still-open highlight
is flushed to the output at traversal end. -/
def extract_research_highlights (soup : Soup) : List Highlight :=
  match soup.content with
  | none => []
  | some content =>
    let s := (findAll ["h1", "h2", "h3", "p", "img", "a"] content).foldl hlStep ⟨[], none⟩
    s.highlights ++ (match s.cur with | some h => [h] | none => [])

/-! ## Research projects extractor (`extract_research_projects`) -/

structure Project where
  id : String
  number : Nat
  title_zh : String
  title_en : String
  description : String
deriving DecidableEq

/-- Embedding of the numbered-project pattern
`^\*?\*?\s*(\d+)\.\s*(.+)$` on newline-free text: up to two leading
emphasis asterisks, optional whitespace, a digit run, a dot, optional
whitespace, then a nonempty title (same backtracking rule as the
news-line pattern). -/
def projLineMatch (l : List Char) : Option (List Char × List Char) :=
  let l1 := match l with
    | '*' :: t => (match t with | '*' :: t2 => t2 | _ => t)
    | _ => l
  let l2 := l1.dropWhile isWS
  let ds := l2.takeWhile Char.isDigit
  let rest := l2.drop ds.length
  if ds.isEmpty then none
  else
    match rest with
    | '.' :: tail =>
      let w := tail.takeWhile isWS
      let t := tail.drop w.length
      if !t.isEmpty then some (ds, t)
      else if 1 ≤ w.length then some (ds, [w.getLastD ' ']) else none
    | _ => none

/-- The Chinese/English title split of `extract_research_projects`: with a
newline in the raw element text, each cleaned newline-separated part not
starting with a digit is routed by CJK detection (last part of each
language wins); otherwise the whole matched title is routed by CJK
detection. -/
def projTitles (e : Elem) (title : String) : String × String :=
  if strIn "\n" e.text then
    (pySplit "\n" (pyStrip e.text)).foldl
      (fun zhen partRaw =>
        let part := cleanText partRaw
        if part ≠ "" ∧ ¬(part.data.headD ' ').isDigit then
          if hasCJK part then (part, zhen.2) else (zhen.1, part)
        else zhen)
      ("", "")
  else if hasCJK title then (title, "") else ("", title)

/-- One iteration of the `extract_research_projects` loop: the state is
the `in_projects_section` flag and the output list.  A section-marker
header turns the flag on and skips the rest of the iteration; any other
h1/h2 while in the section turns it off; every element seen while the
flag is (still) on is tested against the numbered-project pattern. -/
def projStep (s : Bool × List Project) (e : Elem) : Bool × List Project :=
  let text := cleanText e.text
  let isH := e.tag == "h1" || e.tag == "h2" || e.tag == "h3"
  if isH && (strIn "Research Project" text || strIn "研究計畫" text) then (true, s.2)
  else
    let inSec := if isH && s.1 && (e.tag == "h1" || e.tag == "h2") then false else s.1
    if inSec then
      match projLineMatch text.data with
      | some (ds, titleL) =>
        let title : String := ⟨titleL⟩
        let zhen := projTitles e title
        (inSec, s.2 ++ [{ id := "project-" ++ (⟨ds⟩ : String), number := digitsVal ds,
                          title_zh := zhen.1, title_en := zhen.2, description := "" }])
      | none => (inSec, s.2)
    else (inSec, s.2)

/-- Embedding of `extract_research_projects`. -/
def extract_research_projects (soup : Soup) : List Project :=
  match soup.content with
  | none => []
  | some content =>
    ((findAll ["h1", "h2", "h3", "p", "li"] content).foldl projStep (false, [])).2

/-! ## People extractor (`extract_people`, juanlab-astro copy) -/

inductive PCat
  | phd
  | masters
  | undergrads
  | visiting
  | alumni
  | postdocs
deriving DecidableEq

structure Member where
  name_zh : String
  name_en : String
  year_start : Nat
  department : String
  research : List String
  photo : Option String
  email : Option String
deriving DecidableEq

structure Roster where
  phd_students : List Member
  masters_students : List Member
  undergrads : List Member
  visiting : List Member
  alumni : List Member
  postdocs : List Member
deriving DecidableEq

def emptyRoster : Roster :=
  ⟨[], [], [], [], [], []⟩

/-- Append a member to the bucket of the given category. -/
def rosterAppend (r : Roster) (c : PCat) (m : Member) : Roster :=
  match c with
  | .phd => { r with phd_students := r.phd_students ++ [m] }
  | .masters => { r with masters_students := r.masters_students ++ [m] }
  | .undergrads => { r with undergrads := r.undergrads ++ [m] }
  | .visiting => { r with visiting := r.visiting ++ [m] }
  | .alumni => { r with alumni := r.alumni ++ [m] }
  | .postdocs => { r with postdocs := r.postdocs ++ [m] }

/-- The `category_keywords` table, in Python dict insertion order (the
iteration order of the lookup loop). -/
def categoryKeywords : List (String × PCat) :=
  [("phd", .phd), ("ph.d", .phd), ("博士", .phd), ("doctoral", .phd),
   ("master", .masters), ("碩士", .masters), ("ms student", .masters),
   ("undergrad", .undergrads), ("大專", .undergrads), ("大學部", .undergrads),
   ("visiting", .visiting), ("exchange", .visiting), ("訪問", .visiting),
   ("alumni", .alumni), ("畢業", .alumni), ("former", .alumni),
   ("postdoc", .postdocs), ("博士後", .postdocs)]

/-- First keyword of the table contained in the lower-cased header text
wins (the `break` in the lookup loop). -/
def lookupCategory (tl : String) : Option PCat :=
  (categoryKeywords.find? (fun kc => strIn kc.1 tl)).map (fun kc => kc.2)

/-- The four standard-role buckets that an active alumni section
supersedes. -/
def standardCats : List PCat :=
  [.phd, .masters, .undergrads, .postdocs]

/-- Embedding of the member pattern `^([^\(]+?)\s*\(([^)]+)\)(.*)$` on
newline-free text: a nonempty name part (lazy, so maximal contiguous
whitespace before the first parenthesis is excluded, keeping at least one
character), the first parenthesized group (nonempty, up to the first
closing parenthesis), and the trailing rest. -/
def memberMatch (l : List Char) : Option (List Char × List Char × List Char) :=
  let pre := l.takeWhile (fun c => !(c == '('))
  let rem := l.drop pre.length
  match rem with
  | '(' :: rest =>
    if pre.isEmpty then none
    else
      let inner := rest.takeWhile (fun c => !(c == ')'))
      let after := rest.drop inner.length
      if inner.isEmpty then none
      else
        match after with
        | ')' :: g3 =>
          let core := (pre.reverse.dropWhile isWS).reverse
          some (if core.isEmpty then pre.take 1 else core, inner, g3)
        | _ => none
  | _ => none

/-- The century inference of `extract_people`: `2000 + year_val if
year_val < 50 else 1900 + year_val`. -/
def inferYearPeople (y : Nat) : Nat :=
  if y < 50 then 2000 + y else 1900 + y

/-- The member record built from a successful `member_pattern` match:
year and department from the first parenthesized group (first two digits
century-inferred, the digits' first occurrence removed and stray
separators stripped for the department), bilingual name split by CJK
detection, comma-separated research tags from the rest, photo and email
from the element. -/
def memberOfMatch (e : Elem) (g1 g2 g3 : List Char) : Member :=
  let name_part := pyStrip ⟨g1⟩
  let info_part := pyStrip ⟨g2⟩
  let rest_part := pyStrip ⟨g3⟩
  let yd : Nat × String :=
    match findTwoDigits info_part.data with
    | some (a, b) =>
      (inferYearPeople (digitsVal [a, b]),
       stripChars [' ', '-', ';', ','] (pyReplaceFirst (⟨[a, b]⟩ : String) "" info_part))
    | none => (2024, info_part)
  let names : String × String :=
    (pyWords name_part).foldl
      (fun zhen part =>
        if hasCJK part then (part, zhen.2)
        else (zhen.1, pyStrip (zhen.2 ++ " " ++ part)))
      ("", "")
  { name_zh := names.1, name_en := names.2, year_start := yd.1, department := yd.2,
    research := ((pySplit "," rest_part).map pyStrip).filter (fun r => r ≠ ""),
    photo := e.imgSrc.map make_absolute_url,
    email := e.mailtoHref.map (fun h => pyReplaceAll "mailto:" "" h) }

/-- The fallback member record for short unmatched text: the whole text
is the name, routed by CJK detection; the year search of the fallback
branch is dead code (`pass`), so the default year 2024 always stands. -/
def fallbackMember (e : Elem) (text : String) : Member :=
  { name_zh := if hasCJK text then text else "",
    name_en := if hasCJK text then "" else text,
    year_start := 2024, department := "", research := [],
    photo := e.imgSrc.map make_absolute_url, email := none }

/-- The member-entry parse applied to a roster element: empty or
one-character text is skipped, the primary pattern is tried first, and
unmatched text of length 2 to 49 falls back to a bare name record. -/
def memberFromElem (e : Elem) : Option Member :=
  let text := cleanText e.text
  if text.length < 2 then none
  else
    match memberMatch text.data with
    | some g => some (memberOfMatch e g.1 g.2.1 g.2.2)
    | none =>
      if 1 < text.length ∧ text.length < 50 then some (fallbackMember e text) else none

def headerTags : List String := ["h1", "h2", "h3", "h4"]

def memberTags : List String := ["li", "p", "tr"]

/-- Traversal state of `extract_people`: accumulated roster, active
category, and the sticky `is_alumni_section` flag. -/
structure PState where
  people : Roster
  current : Option PCat
  isAlumni : Bool
deriving DecidableEq

/-- One iteration of the `extract_people` loop: empty text is skipped; a
header containing "alumni" sets the sticky alumni flag and the alumni
category; any other header takes the first matching table keyword, with
standard roles remapped to alumni while the flag is set; list items,
paragraphs and table rows are parsed into a member appended to the active
category's bucket. -/
def peopleStep (s : PState) (e : Elem) : PState :=
  let text := cleanText e.text
  if text = "" then s
  else
    let tl := lowerStr text
    if headerTags.contains e.tag then
      if strIn "alumni" tl then { s with isAlumni := true, current := some .alumni }
      else
        match lookupCategory tl with
        | some c =>
          let c2 : PCat := if s.isAlumni && standardCats.contains c then .alumni else c
          { s with current := some c2 }
        | none => s
    else if memberTags.contains e.tag then
      match s.current with
      | some c =>
        match memberFromElem e with
        | some m => { s with people := rosterAppend s.people c m }
        | none => s
      | none => s
    else s

/-- The member record an element contributes during the traversal, if
any: only list items, paragraphs and table rows are parsed. -/
def memberProduced (e : Elem) : Option Member :=
  if memberTags.contains e.tag then memberFromElem e else none

def peopleTags : List String := ["h1", "h2", "h3", "h4", "li", "p", "tr"]

/-- Embedding of `extract_people` (juanlab-astro copy). -/
def extract_people (soup : Soup) : Roster :=
  match soup.content with
  | none => emptyRoster
  | some content =>
    ((findAll peopleTags content).foldl peopleStep ⟨emptyRoster, none, false⟩).people

/-! ## PI profile extractor (`extract_pi_info`) -/

structure PIInfo where
  name_zh : String
  name_en : String
  title : String
  department : String
  institution : String
  email : String
  email2 : String
  phone : String
  fax : String
  address : String
  photo : Option String
  bio : String
  education : List String
  positions : List String
  awards : List String
  societies : List String
deriving DecidableEq

/-- The constant identity record `pi` is initialized to. -/
def piBase : PIInfo :=
  { name_zh := "阮雪芬", name_en := "Hsueh-Fen Juan",
    title := "Distinguished Professor",
    department := "Department of Life Science",
    institution := "National Taiwan University",
    email := "yukijuan@ntu.edu.tw", email2 := "yukijuan@gmail.com",
    phone := "+886-2-3366-4536", fax := "+886-2-2367-3374",
    address := "Rm. 1105, Life Science Building, National Taiwan University, No. 1 Sec. 4 Roosevelt Road, Taipei 106, Taiwan",
    photo := none, bio := "", education := [], positions := [], awards := [],
    societies := [] }

/-- The PI photo: the first image of the content root whose source path
contains "juan" or "pi" (case-insensitive). -/
def piPhoto (content : List Elem) : Option String :=
  ((findAll ["img"] content).find? (fun img =>
    strIn "juan" (lowerStr img.attrSrc) || strIn "pi" (lowerStr img.attrSrc))).map
      (fun img => make_absolute_url img.attrSrc)

/-- The PI bio: blank-line join of the first three cleaned paragraphs
longer than 100 characters (empty when there are none). -/
def piBio (content : List Elem) : String :=
  let paragraphs := ((findAll ["p"] content).map (fun p => cleanText p.text)).filter
    (fun t => 100 < t.length)
  if paragraphs.isEmpty then "" else String.intercalate "\n\n" (paragraphs.take 3)

inductive PISec
  | education
  | positions
  | awards
  | societies
deriving DecidableEq

/-- The `section_keywords` table of `extract_pi_info`, in dict insertion
order. -/
def piSectionKeywords : List (String × PISec) :=
  [("education", .education), ("學歷", .education),
   ("position", .positions), ("經歷", .positions),
   ("award", .awards), ("榮譽", .awards), ("honor", .awards),
   ("society", .societies), ("學會", .societies)]

/-- Append a line to the list of the given PI section. -/
def piAppend (pi : PIInfo) (sec : PISec) (t : String) : PIInfo :=
  match sec with
  | .education => { pi with education := pi.education ++ [t] }
  | .positions => { pi with positions := pi.positions ++ [t] }
  | .awards => { pi with awards := pi.awards ++ [t] }
  | .societies => { pi with societies := pi.societies ++ [t] }

/-- One iteration of the PI section loop: headers switch the active
section by first keyword match (no closing rule); list items are appended
to the active section. -/
def piStep (s : PIInfo × Option PISec) (e : Elem) : PIInfo × Option PISec :=
  let text := cleanText e.text
  let tl := lowerStr text
  if e.tag == "h2" || e.tag == "h3" || e.tag == "h4" then
    match (piSectionKeywords.find? (fun ks => strIn ks.1 tl)).map (fun ks => ks.2) with
    | some sec => (s.1, some sec)
    | none => s
  else if e.tag == "li" then
    match s.2 with
    | some sec => if text ≠ "" then (piAppend s.1 sec text, s.2) else s
    | none => s
  else s

/-- Embedding of `extract_pi_info`. -/
def extract_pi_info (soup : Soup) : PIInfo :=
  match soup.content with
  | none => piBase
  | some content =>
    let pi0 := { piBase with photo := piPhoto content, bio := piBio content }
    ((findAll ["h2", "h3", "h4", "li"] content).foldl piStep (pi0, none)).1

/-! ## Image manifest deduplication (the `main` assembly step) -/

/-- One iteration of the manifest dedup loop of `main`: the state is the
set of seen URLs (modeled as a list used only through membership) and the
unique-image list. -/
def dedupStep (acc : List String × List ImageRec) (img : ImageRec) :
    List String × List ImageRec :=
  if acc.1.contains img.url then acc
  else (img.url :: acc.1, acc.2 ++ [img])

/-- Embedding of the manifest deduplication of `main`: keep the first
occurrence of each exact URL string, in order. -/
def dedupImages (all_images : List ImageRec) : List ImageRec :=
  (all_images.foldl dedupStep ([], [])).2

/-! ## Concrete documents used by counterexamples and witnesses -/

/-- The C5 example document: three news list items. -/
def newsExampleSoup : Soup :=
  { content := some [{ tag := "li", text := "24.03 A" },
                     { tag := "li", text := "24.01 B" },
                     { tag := "li", text := "23.12 C" }] }

/-- A start-page document with two qualifying highlight headers. -/
def hlTwoHeaderSoup : Soup :=
  { content := some [{ tag := "h2", text := "ATP team one" },
                     { tag := "h2", text := "ATP team two" }] }

/-! ## Generic lemmas about the traversal folds -/

/-- The header branch never changes the output list: its append is
guarded by `current_highlight is None` and therefore only ever appends
the empty list. -/
theorem hlHeaderStep_highlights (t : String) (s : HState) (e : Elem) :
    (hlHeaderStep t s e).highlights = s.highlights := by
  unfold hlHeaderStep
  cases hc : s.cur <;> (repeat' split) <;> simp_all

/-- The image branch never changes the output list. -/
theorem hlImageStep_highlights (s : HState) (e : Elem) :
    (hlImageStep s e).highlights = s.highlights := by
  unfold hlImageStep
  (repeat' split) <;> rfl

/-- The paragraph branch never changes the output list. -/
theorem hlParaStep_highlights (t : String) (s : HState) (e : Elem) :
    (hlParaStep t s e).highlights = s.highlights := by
  unfold hlParaStep
  (repeat' split) <;> rfl

/-- No branch of the highlights loop body appends to the output list. -/
theorem hlStep_highlights (s : HState) (e : Elem) :
    (hlStep s e).highlights = s.highlights := by
  show (hlParaStep (if e.tag == "img" then "" else cleanText e.text)
      (hlImageStep (hlHeaderStep (if e.tag == "img" then "" else cleanText e.text) s e) e)
      e).highlights = s.highlights
  rw [hlParaStep_highlights, hlImageStep_highlights, hlHeaderStep_highlights]

/-- The highlights accumulated during the fold stay untouched. -/
theorem hlRun_highlights (els : List Elem) (s : HState) :
    (els.foldl hlStep s).highlights = s.highlights := by
  induction els generalizing s with
  | nil => rfl
  | cons e t ih => rw [List.foldl_cons, ih, hlStep_highlights]

/-! ## Claim theorems -/

/-- C9: for every input document, the research-highlights extractor
returns at most one highlight record: a highlight can only be opened
while none is open, nothing is appended during the traversal, and only
the still-open highlight is flushed at traversal end. -/
theorem highlights_at_most_one (sp : Soup) :
    (extract_research_highlights sp).length ≤ 1 := by
  unfold extract_research_highlights
  cases hc : sp.content with
  | none => simp
  | some content =>
    have h := hlRun_highlights (findAll ["h1", "h2", "h3", "p", "img", "a"] content) ⟨[], none⟩
    cases hcur : ((findAll ["h1", "h2", "h3", "p", "img", "a"] content).foldl hlStep
        ⟨[], none⟩).cur <;> simp [h, hcur]

/-- C10: the news extractors of the two scraper copies compute the same
function (the source of `extract_news` is textually identical in
`scripts/scrape_juanlab.py` and `juanlab-astro/scripts/scrape_juanlab.py`,
and so are their embeddings). -/
theorem news_copies_compute_same_function (sp : Soup) :
    extract_news_v1 sp = extract_news sp := rfl

/-- C7: a document lacking the recognized content-root element yields
each topic's zero-valued default structure - the empty list for news,
highlights and projects, the roster with all six categories empty, and
the PI record holding only its constant identity fields - and, the
embeddings being total functions, no extractor can fail. -/
theorem extractors_default_on_missing_root (sp : Soup) (h : sp.content = none) :
    extract_news sp = [] ∧ extract_research_highlights sp = [] ∧
    extract_research_projects sp = [] ∧ extract_people sp = emptyRoster ∧
    extract_pi_info sp = piBase := by
  refine ⟨?_, ?_, ?_, ?_, ?_⟩ <;>
    simp [extract_news, extract_research_highlights, extract_research_projects,
      extract_people, extract_pi_info, h]

/-- Witness for C7 at a concrete rootless document. -/
theorem extractors_default_witness :
    extract_news ⟨none, []⟩ = [] ∧ extract_research_highlights ⟨none, []⟩ = [] ∧
    extract_research_projects ⟨none, []⟩ = [] ∧ extract_people ⟨none, []⟩ = emptyRoster ∧
    extract_pi_info ⟨none, []⟩ = piBase :=
  extractors_default_on_missing_root ⟨none, []⟩ rfl

/-- C4: the century inference used on two-digit year tokens maps `y < 50`
to `2000 + y` and `y ≥ 50` to `1900 + y`, and the rule inlined in
`extract_news` agrees with the rule inlined in `extract_people`
(`extract_research_projects` parses no year tokens at all, so the claim
is vacuous there). -/
theorem century_inference_rule (y : Nat) :
    (y < 50 → inferYearNews y = 2000 + y ∧ inferYearPeople y = 2000 + y) ∧
    (50 ≤ y → inferYearNews y = 1900 + y ∧ inferYearPeople y = 1900 + y) ∧
    inferYearNews y = inferYearPeople y := by
  refine ⟨?_, ?_, rfl⟩
  · intro h
    simp [inferYearNews, inferYearPeople, if_pos h]
  · intro h
    have h2 : ¬y < 50 := by omega
    simp [inferYearNews, inferYearPeople, if_neg h2]

/-- Witness for C4 on both sides of the threshold. -/
theorem century_inference_witness :
    inferYearNews 21 = 2021 ∧ inferYearPeople 21 = 2021 ∧
    inferYearNews 99 = 1999 ∧ inferYearPeople 99 = 1999 := by
  have h21 := (century_inference_rule 21).1 (by norm_num)
  have h99 := (century_inference_rule 99).2.1 (by norm_num)
  exact ⟨by simpa using h21.1, by simpa using h21.2, by simpa using h99.1,
    by simpa using h99.2⟩

/-- C5: for every document the news list is sorted descending by the
`(year, month)` key, and on the example items `24.03 A`, `24.01 B`,
`23.12 C` the output order is A, B, C. -/
theorem news_sorted_descending :
    (∀ sp : Soup, (extract_news sp).Pairwise newsGeRel) ∧
    (extract_news newsExampleSoup).map (fun n => n.title) = ["A", "B", "C"] := by
  constructor
  · intro sp
    unfold extract_news
    cases hc : sp.content with
    | none => simp
    | some content => exact List.sorted_insertionSort newsGeRel _
  · decide

/-- C1 counterexample: on a document whose content root holds two
qualifying highlight headers ("ATP team one" and "ATP team two", neither
being the main "Research Highlight" section header), the extractor
returns a single record, built from the first header.  Under the claim,
the second qualifying header would have closed the first highlight
(appending it) and opened a second, giving two records; in the code a
highlight only opens while none is open, so the second header is
ignored. -/
theorem highlight_not_closed_by_next_header :
    (extract_research_highlights hlTwoHeaderSoup).map (fun h => h.id) = ["atp-team-one"] ∧
    hlHasMarker (cleanText (Elem.mk "h2" "ATP team two" none none none "" "").text) = true := by
  decide

/-- C1 amended: a highlight record opens when a header's text contains a
topic marker while no highlight is open (and the output list is untouched
at that moment); once a highlight is open, header elements - qualifying
or not - leave the traversal state completely unchanged, so the open
highlight is only appended to the output at traversal end. -/
theorem highlight_open_close_amended (s : HState) (e : Elem) :
    (s.cur.isSome = true → (e.tag = "h1" ∨ e.tag = "h2" ∨ e.tag = "h3") → hlStep s e = s) ∧
    (s.cur = none → (e.tag = "h1" ∨ e.tag = "h2" ∨ e.tag = "h3") →
      strIn "Research Highlight" (cleanText e.text) = false →
      hlHasMarker (cleanText e.text) = true →
      (hlStep s e).highlights = s.highlights ∧
      (hlStep s e).cur = some (mkHighlight (cleanText e.text))) := by
  constructor
  · intro hcur htag
    obtain ⟨h, hh⟩ : ∃ h, s.cur = some h := by
      cases hc : s.cur with
      | none => rw [hc] at hcur; simp at hcur
      | some h => exact ⟨h, rfl⟩
    rcases htag with h1 | h1 | h1 <;>
      · unfold hlStep hlParaStep hlImageStep hlHeaderStep
        simp [h1, hh]
  · intro hcur htag hrh hmk
    rcases htag with h1 | h1 | h1 <;>
      · unfold hlStep hlParaStep hlImageStep hlHeaderStep
        simp [h1, hcur, hrh, hmk]

/-- Witness for the amended C1 at concrete states and headers. -/
theorem highlight_open_close_witness :
    hlStep ⟨[], some (mkHighlight "ATP x")⟩ (Elem.mk "h2" "ATP again" none none none "" "")
        = ⟨[], some (mkHighlight "ATP x")⟩ ∧
    (hlStep ⟨[], none⟩ (Elem.mk "h2" "ATP fresh" none none none "" "")).cur
        = some (mkHighlight (cleanText "ATP fresh")) := by
  have h1 := highlight_open_close_amended ⟨[], some (mkHighlight "ATP x")⟩
    (Elem.mk "h2" "ATP again" none none none "" "")
  have h2 := highlight_open_close_amended ⟨[], none⟩
    (Elem.mk "h2" "ATP fresh" none none none "" "")
  exact ⟨h1.1 rfl (Or.inr (Or.inl rfl)),
    (h2.2 rfl (Or.inr (Or.inl rfl)) (by decide) (by decide)).2⟩

/-! ## People traversal lemmas -/

/-- A header tag is not a member tag. -/
theorem header_not_member {t : String} (h : headerTags.contains t = true) :
    memberTags.contains t = false := by
  simp only [headerTags, List.contains_cons, List.contains_nil, Bool.or_eq_true,
    beq_iff_eq] at h
  rcases h with h | h | h | h | h <;> first | (subst h; decide) | exact absurd h (by decide)

/-- A member tag is not a header tag. -/
theorem member_not_header {t : String} (h : memberTags.contains t = true) :
    headerTags.contains t = false := by
  simp only [memberTags, List.contains_cons, List.contains_nil, Bool.or_eq_true,
    beq_iff_eq] at h
  rcases h with h | h | h | h <;> first | (subst h; decide) | exact absurd h (by decide)

/-- An element with empty cleaned text yields no member. -/
theorem memberFromElem_empty {e : Elem} (h : cleanText e.text = "") :
    memberFromElem e = none := by
  unfold memberFromElem
  rw [h]
  rfl

/-- On an element with a member tag and an active category, the people
loop body reduces to parsing the element and appending the result, if
any, to the active bucket. -/
theorem peopleStep_member (s : PState) (e : Elem) (c : PCat)
    (hcur : s.current = some c) (hmem : memberTags.contains e.tag = true) :
    peopleStep s e = (match memberFromElem e with
      | some m => { s with people := rosterAppend s.people c m }
      | none => s) := by
  have hhdr : headerTags.contains e.tag = false := member_not_header hmem
  have hm2 : e.tag ∈ memberTags := by simpa using hmem
  have hh2 : e.tag ∉ headerTags := by simpa using hhdr
  unfold peopleStep
  by_cases htext : cleanText e.text = ""
  · rw [memberFromElem_empty htext]
    simp [htext]
  · simp [htext, hh2, hm2, hcur]

/-- C2: a roster element whose normalized text is
`王小明 Wang Ming (21-LS) systems biology, genomics`, seen while a roster
category is active, is parsed into a member record with the claimed
bilingual names, inferred start year, department and research tags,
appended to the active category's bucket. -/
theorem member_line_parsed (s : PState) (c : PCat) (e : Elem)
    (hcur : s.current = some c)
    (htag : memberTags.contains e.tag = true)
    (htext : cleanText e.text = "王小明 Wang Ming (21-LS) systems biology, genomics") :
    ∃ m : Member,
      (peopleStep s e).people = rosterAppend s.people c m ∧
      m.name_zh = "王小明" ∧ m.name_en = "Wang Ming" ∧ m.year_start = 2021 ∧
      m.department = "LS" ∧ m.research = ["systems biology", "genomics"] := by
  have hmf : memberFromElem e =
      some (memberOfMatch e "王小明 Wang Ming".data "21-LS".data
        " systems biology, genomics".data) := by
    unfold memberFromElem
    rw [htext]
    rfl
  refine ⟨memberOfMatch e "王小明 Wang Ming".data "21-LS".data
    " systems biology, genomics".data, ?_, rfl, rfl, rfl, rfl, rfl⟩
  rw [peopleStep_member s e c hcur htag, hmf]

/-- Concrete state and element for the C2 witness. -/
def memberLineElem : Elem :=
  { tag := "li", text := "王小明 Wang Ming (21-LS) systems biology, genomics" }

def memberLineState : PState :=
  ⟨emptyRoster, some PCat.phd, false⟩

/-- Witness for C2 at a concrete state and element. -/
theorem member_line_witness :
    ∃ m : Member,
      (peopleStep memberLineState memberLineElem).people
          = rosterAppend memberLineState.people PCat.phd m ∧
      m.name_zh = "王小明" ∧ m.name_en = "Wang Ming" ∧ m.year_start = 2021 ∧
      m.department = "LS" ∧ m.research = ["systems biology", "genomics"] :=
  member_line_parsed memberLineState PCat.phd memberLineElem rfl (by decide) (by decide)

/-! ## Image collector lemmas -/

/-- Every record appended by the image loop carries a filename computed
from its own recorded (absolutized) URL. -/
theorem image_fold_filename (els : List Elem) (acc : List ImageRec)
    (hacc : ∀ r ∈ acc, r.filename = imageFilename r.url) :
    ∀ r ∈ els.foldl imageStep acc, r.filename = imageFilename r.url := by
  induction els generalizing acc with
  | nil => exact hacc
  | cons e t ih =>
    intro r hr
    rw [List.foldl_cons] at hr
    refine ih (imageStep acc e) ?_ r hr
    intro r2 hr2
    unfold imageStep at hr2
    by_cases hA : imgAccepted e.attrSrc = true
    · simp only [hA, if_pos] at hr2
      rcases List.mem_append.mp hr2 with h | h
      · exact hacc r2 h
      · rcases List.mem_singleton.mp h with rfl
        rfl
    · simp only [Bool.not_eq_true] at hA
      simp only [hA] at hr2
      simp at hr2
      exact hacc r2 hr2

/-- C8: every record the image-reference collector emits has its filename
recovered from the recorded absolute URL by the documented rule: when the
URL contains `media=`, the URL-decoded text after the (last) `media=`;
otherwise the URL-decoded last path segment with any query string
stripped. -/
theorem image_filename_recovery (sp : Soup) (r : ImageRec)
    (hr : r ∈ extract_image_urls sp) :
    r.filename = (if strIn "media=" r.url
      then unquote ((pySplit "media=" r.url).getLastD "")
      else unquote ((pySplit "?" ((pySplit "/" r.url).getLastD "")).headD "")) :=
  image_fold_filename (findAll ["img"] sp.body) [] (by intro r2 hr2; simp at hr2) r hr

/-- Concrete document and record for the C8 witness. -/
def imageWitnessSoup : Soup :=
  { content := none,
    body := [{ tag := "img", text := "",
               attrSrc := "/lib/exe/fetch.php?media=ns%3Apic.jpg", attrAlt := "p" }] }

def imageWitnessRec : ImageRec :=
  { url := "https://sbl.csie.org/lib/exe/fetch.php?media=ns%3Apic.jpg",
    filename := "ns:pic.jpg", alt := "p" }

/-- Witness for C8 at a concrete document. -/
theorem image_filename_witness :
    imageWitnessRec ∈ extract_image_urls imageWitnessSoup ∧
    imageWitnessRec.filename = (if strIn "media=" imageWitnessRec.url
      then unquote ((pySplit "media=" imageWitnessRec.url).getLastD "")
      else unquote ((pySplit "?" ((pySplit "/" imageWitnessRec.url).getLastD "")).headD "")) :=
  ⟨by decide, image_filename_recovery imageWitnessSoup imageWitnessRec (by decide)⟩

/-! ## Deduplication lemmas -/

/-- Recursive reformulation of the manifest dedup loop: `seen` is the set
of already-kept URLs. -/
def dedupAux : List String → List ImageRec → List ImageRec
  | _, [] => []
  | seen, x :: xs =>
    if seen.contains x.url then dedupAux seen xs
    else x :: dedupAux (x.url :: seen) xs

/-- The fold of `main` computes `dedupAux`. -/
theorem dedup_fold_eq (xs : List ImageRec) (seen : List String) (acc : List ImageRec) :
    (xs.foldl dedupStep (seen, acc)).2 = acc ++ dedupAux seen xs := by
  induction xs generalizing seen acc with
  | nil => simp [dedupAux]
  | cons x t ih =>
    simp only [List.foldl_cons, dedupStep, dedupAux]
    by_cases hm : x.url ∈ seen
    · simp [hm, ih]
    · simp [hm, ih]

/-- `dedupAux` only depends on the membership content of `seen`. -/
theorem dedupAux_congr (xs : List ImageRec) (s1 s2 : List String)
    (h : ∀ u, u ∈ s1 ↔ u ∈ s2) : dedupAux s1 xs = dedupAux s2 xs := by
  induction xs generalizing s1 s2 with
  | nil => rfl
  | cons x t ih =>
    by_cases hm : x.url ∈ s2
    · have hm1 : x.url ∈ s1 := (h _).mpr hm
      simp [dedupAux, hm, hm1, ih s1 s2 h]
    · have hm1 : x.url ∉ s1 := fun hx => hm ((h _).mp hx)
      simp only [dedupAux]
      rw [if_neg (by simpa using hm1), if_neg (by simpa using hm)]
      rw [ih (x.url :: s1) (x.url :: s2) (fun u => by simp [h u])]

/-- Adding a URL to `seen` is the same as pre-filtering every record with
that URL out of the input. -/
theorem dedupAux_filter (xs : List ImageRec) (u : String) (seen : List String) :
    dedupAux (u :: seen) xs = dedupAux seen (xs.filter (fun r => !(r.url == u))) := by
  induction xs generalizing seen with
  | nil => rfl
  | cons x t ih =>
    by_cases hx : x.url = u
    · have hcon : x.url ∈ u :: seen := by simp [hx]
      simp [dedupAux, List.filter_cons, hx, hcon, ih]
    · by_cases hs : x.url ∈ seen
      · have hcon : x.url ∈ u :: seen := by simp [hs]
        simp [dedupAux, List.filter_cons, hx, hcon, hs, ih]
      · have hcon : x.url ∉ u :: seen := by simp [hx, hs]
        simp only [dedupAux, List.filter_cons]
        rw [if_neg (by simpa using hcon)]
        have hxb : (!(x.url == u)) = true := by simp [hx]
        rw [hxb]
        simp only [dedupAux]
        rw [if_neg (by simpa using hs)]
        rw [dedupAux_congr t (x.url :: u :: seen) (u :: x.url :: seen)
          (fun v => by simp; tauto)]
        rw [ih (x.url :: seen)]

/-- The kept records have pairwise distinct URLs, none of them in
`seen`. -/
theorem dedupAux_nodup (xs : List ImageRec) (seen : List String) :
    ((dedupAux seen xs).map (fun r => r.url)).Nodup ∧
    ∀ r ∈ dedupAux seen xs, r.url ∉ seen := by
  induction xs generalizing seen with
  | nil => simp [dedupAux]
  | cons x t ih =>
    by_cases hc : x.url ∈ seen
    · simpa [dedupAux, hc] using ih seen
    · obtain ⟨ihn, ihm⟩ := ih (x.url :: seen)
      simp only [dedupAux]
      rw [if_neg (by simpa using hc)]
      constructor
      · simp only [List.map_cons, List.nodup_cons]
        refine ⟨?_, ihn⟩
        intro hmem
        obtain ⟨r, hr, hru⟩ := List.mem_map.mp hmem
        exact absurd (List.mem_cons_self _ _) (hru ▸ ihm r hr)
      · intro r hr
        rcases List.mem_cons.mp hr with rfl | hr2
        · exact hc
        · exact fun hmem => ihm r hr2 (List.mem_cons_of_mem _ hmem)

/-- The unfold equation of `dedupImages` on a cons cell. -/
theorem dedupImages_cons (x : ImageRec) (xs : List ImageRec) :
    dedupImages (x :: xs) = x :: dedupImages (xs.filter (fun r => !(r.url == x.url))) := by
  unfold dedupImages
  rw [dedup_fold_eq, dedup_fold_eq]
  simp only [List.nil_append, dedupAux, List.contains_nil, Bool.false_eq_true, if_false]
  rw [dedupAux_filter]

/-- The manifest never holds two records with the same URL. -/
theorem dedupImages_nodup (xs : List ImageRec) :
    ((dedupImages xs).map (fun r => r.url)).Nodup := by
  unfold dedupImages
  rw [dedup_fold_eq]
  simpa using (dedupAux_nodup xs []).1

/-- A list of records with pairwise distinct URLs passes through the
dedup unchanged. -/
theorem dedupImages_of_nodup (xs : List ImageRec)
    (h : (xs.map (fun r => r.url)).Nodup) : dedupImages xs = xs := by
  induction xs with
  | nil => rfl
  | cons x t ih =>
    simp only [List.map_cons, List.nodup_cons] at h
    rw [dedupImages_cons]
    have hfilter : t.filter (fun r => !(r.url == x.url)) = t := by
      apply List.filter_eq_self.mpr
      intro r hr
      simp only [Bool.not_eq_eq_eq_not, Bool.not_true, beq_eq_false_iff_ne, ne_eq]
      intro heq
      exact h.1 (List.mem_map.mpr ⟨r, hr, heq⟩)
    rw [hfilter, ih h.2]

/-- C6: the final manifest keeps exactly one record per distinct absolute
URL string, the first occurrence, in first-seen order (the cons equation
below is the complete recursive characterization: the head is kept and
every later record with the same URL string is dropped); records whose
URL strings differ at all - in particular URL-encoding variants of the
same path - are never merged. -/
theorem manifest_dedup_by_url :
    (∀ (x : ImageRec) (xs : List ImageRec),
      dedupImages (x :: xs) = x :: dedupImages (xs.filter (fun r => !(r.url == x.url)))) ∧
    (∀ xs : List ImageRec, ((dedupImages xs).map (fun r => r.url)).Nodup) ∧
    (∀ xs : List ImageRec, (xs.map (fun r => r.url)).Nodup → dedupImages xs = xs) :=
  ⟨dedupImages_cons, dedupImages_nodup, dedupImages_of_nodup⟩

/-- Two references that are URL-encoding variants of the same path. -/
def encodedRec : ImageRec :=
  { url := "https://sbl.csie.org/JuanLab/a%20b.png", filename := "a b.png", alt := "" }

def decodedRec : ImageRec :=
  { url := "https://sbl.csie.org/JuanLab/a b.png", filename := "a b.png", alt := "" }

/-- Witness for C6: encoding variants are both kept; an exact duplicate
is dropped. -/
theorem manifest_dedup_witness :
    dedupImages [encodedRec, decodedRec] = [encodedRec, decodedRec] ∧
    dedupImages [encodedRec, encodedRec] = [encodedRec] := by
  have h := manifest_dedup_by_url
  constructor
  · exact h.2.2 [encodedRec, decodedRec] (by decide)
  · have h1 := h.1 encodedRec [encodedRec]
    have h2 : ([encodedRec].filter (fun r => !(r.url == encodedRec.url))) = [] := by decide
    rw [h1, h2]
    rfl

/-! ## Alumni traversal lemmas -/

/-- Is a post-alumni header harmless, i.e. unable to move the active
category away from alumni?  Only a header that (is nonempty, does not
itself mention "alumni" and) resolves to the visiting category can. -/
def safeAfterAlumni (e : Elem) : Prop :=
  e.tag ∈ headerTags → cleanText e.text ≠ "" →
    strIn "alumni" (lowerStr (cleanText e.text)) = false →
    lookupCategory (lowerStr (cleanText e.text)) ≠ some PCat.visiting

instance (e : Elem) : Decidable (safeAfterAlumni e) := by
  unfold safeAfterAlumni
  infer_instance

/-- A header that mentions "alumni" sets the sticky flag and the alumni
category and leaves the roster untouched. -/
theorem peopleStep_alumni_header (s : PState) (e : Elem)
    (htag : e.tag ∈ headerTags) (hne : cleanText e.text ≠ "")
    (hal : strIn "alumni" (lowerStr (cleanText e.text)) = true) :
    peopleStep s e = { s with isAlumni := true, current := some PCat.alumni } := by
  unfold peopleStep
  simp [hne, htag, hal]

/-- While the alumni flag is set, a header whose first keyword match is a
standard role activates the alumni category, not the role's own. -/
theorem peopleStep_std_header (s : PState) (e : Elem) (c : PCat)
    (hA : s.isAlumni = true) (htag : e.tag ∈ headerTags)
    (hne : cleanText e.text ≠ "")
    (hnal : strIn "alumni" (lowerStr (cleanText e.text)) = false)
    (hcat : lookupCategory (lowerStr (cleanText e.text)) = some c)
    (hstd : c ∈ standardCats) :
    peopleStep s e = { s with current := some PCat.alumni } := by
  unfold peopleStep
  simp [hne, htag, hnal, hcat, hA, hstd]

/-- The sticky alumni flag, once set, survives every loop iteration. -/
theorem peopleStep_isAlumni (s : PState) (e : Elem) (h : s.isAlumni = true) :
    (peopleStep s e).isAlumni = true := by
  by_cases htext : cleanText e.text = ""
  · simp [peopleStep, htext, h]
  · by_cases hhdr : e.tag ∈ headerTags
    · by_cases hal : strIn "alumni" (lowerStr (cleanText e.text)) = true
      · simp [peopleStep, htext, hhdr, hal]
      · simp only [Bool.not_eq_true] at hal
        cases hcat : lookupCategory (lowerStr (cleanText e.text)) with
        | none => simp [peopleStep, htext, hhdr, hal, hcat, h]
        | some c => simp [peopleStep, htext, hhdr, hal, hcat, h]
    · by_cases hmem : e.tag ∈ memberTags
      · cases hcur : s.current with
        | none => simp [peopleStep, htext, hhdr, hmem, hcur, h]
        | some c =>
          cases hmf : memberFromElem e <;>
            simp [peopleStep, htext, hhdr, hmem, hcur, hmf, h]
      · simp [peopleStep, htext, hhdr, hmem, h]

/-- The sticky alumni flag survives any rest of the traversal. -/
theorem peopleRun_isAlumni (els : List Elem) (s : PState) (h : s.isAlumni = true) :
    (els.foldl peopleStep s).isAlumni = true := by
  induction els generalizing s with
  | nil => exact h
  | cons e t ih => exact ih (peopleStep s e) (peopleStep_isAlumni s e h)

/-- With the alumni flag set, the alumni category active and a harmless
element, one loop iteration keeps the flag and category and at most
appends the element's member to the alumni bucket. -/
theorem peopleStep_alumni_run (s : PState) (e : Elem)
    (hA : s.isAlumni = true) (hC : s.current = some PCat.alumni)
    (hsafe : safeAfterAlumni e) :
    peopleStep s e =
      { people := (match memberProduced e with
          | some m => rosterAppend s.people PCat.alumni m
          | none => s.people),
        current := some PCat.alumni, isAlumni := true } := by
  by_cases htext : cleanText e.text = ""
  · have hmf : memberFromElem e = none := memberFromElem_empty htext
    have hmp : memberProduced e = none := by unfold memberProduced; rw [hmf]; simp
    unfold peopleStep
    rw [if_pos htext, hmp]
    cases s
    simp_all
  · by_cases hhdr : e.tag ∈ headerTags
    · have hmp : memberProduced e = none := by
        unfold memberProduced
        rw [if_neg]
        simpa using header_not_member (by simpa using hhdr)
      rw [hmp]
      by_cases hal : strIn "alumni" (lowerStr (cleanText e.text)) = true
      · rw [peopleStep_alumni_header s e hhdr htext hal]
      · simp only [Bool.not_eq_true] at hal
        cases hcat : lookupCategory (lowerStr (cleanText e.text)) with
        | none =>
          unfold peopleStep
          rw [if_neg htext]
          simp only [hhdr, if_pos, hal, Bool.false_eq_true, if_false, hcat]
          cases s
          simp_all
        | some c =>
          have hnv : c ≠ PCat.visiting := fun hv => hsafe hhdr htext hal (hv ▸ hcat)
          by_cases hstd : c ∈ standardCats
          · rw [peopleStep_std_header s e c hA hhdr htext hal hcat hstd]
            cases s
            simp_all
          · have hca : c = PCat.alumni := by
              cases c <;> simp_all [standardCats]
            unfold peopleStep
            rw [if_neg htext]
            simp only [hhdr, if_pos, hal, Bool.false_eq_true, if_false, hcat, hca, hA, hstd]
            cases s
            simp_all [standardCats]
    · by_cases hmem : e.tag ∈ memberTags
      · have hmp : memberProduced e = memberFromElem e := by
          unfold memberProduced
          rw [if_pos (by simpa using hmem)]
        rw [hmp, peopleStep_member s e PCat.alumni hC (by simpa using hmem)]
        cases hm : memberFromElem e <;> (cases s; simp_all)
      · have hmp : memberProduced e = none := by
          unfold memberProduced
          rw [if_neg (by simpa using hmem)]
        rw [hmp]
        unfold peopleStep
        by_cases htext2 : cleanText e.text = ""
        · rw [if_pos htext2]; cases s; simp_all
        · rw [if_neg htext2]
          simp only [hhdr, hmem]
          cases s
          simp_all

/-- With the alumni flag set and the alumni category active, a harmless
rest of the traversal leaves the four standard-role buckets untouched and
appends exactly its parsed members to the alumni bucket. -/
theorem peopleRun_alumni (post : List Elem) (s : PState)
    (hA : s.isAlumni = true) (hC : s.current = some PCat.alumni)
    (hsafe : ∀ e ∈ post, safeAfterAlumni e) :
    (post.foldl peopleStep s).people.phd_students = s.people.phd_students ∧
    (post.foldl peopleStep s).people.masters_students = s.people.masters_students ∧
    (post.foldl peopleStep s).people.undergrads = s.people.undergrads ∧
    (post.foldl peopleStep s).people.postdocs = s.people.postdocs ∧
    (post.foldl peopleStep s).people.alumni
        = s.people.alumni ++ post.filterMap memberProduced := by
  induction post generalizing s with
  | nil => simp
  | cons e t ih =>
    rw [List.foldl_cons,
      peopleStep_alumni_run s e hA hC (hsafe e (List.mem_cons_self e t))]
    have ihh := ih
      { people := (match memberProduced e with
          | some m => rosterAppend s.people PCat.alumni m
          | none => s.people),
        current := some PCat.alumni, isAlumni := true }
      rfl rfl (fun e2 he2 => hsafe e2 (List.mem_cons_of_mem e he2))
    cases hm : memberProduced e with
    | none =>
      rw [hm] at ihh
      simpa [List.filterMap_cons, hm] using ihh
    | some m =>
      rw [hm] at ihh
      simp only [List.filterMap_cons, hm]
      refine ⟨ihh.1, ihh.2.1, ihh.2.2.1, ihh.2.2.2.1, ?_⟩
      rw [ihh.2.2.2.2]
      simp [rosterAppend]

/-- C3: once a header containing "alumni" has been seen, every person
matched after a subsequent header whose keyword lookup yields a standard
role (phd/masters/undergrad/postdoc) is appended to the alumni bucket and
never to `phd_students`, `masters_students`, `undergrads` or `postdocs`,
until a header resolving to a non-standard-role section (visiting)
appears: over the decomposed traversal, the elements after the
standard-role header extend only the alumni bucket. -/
theorem alumni_supersedes_standard_roles
    (s : PState) (mid post : List Elem) (ha hs : Elem) (c : PCat)
    (ha_tag : ha.tag ∈ headerTags) (ha_ne : cleanText ha.text ≠ "")
    (ha_al : strIn "alumni" (lowerStr (cleanText ha.text)) = true)
    (hs_tag : hs.tag ∈ headerTags) (hs_ne : cleanText hs.text ≠ "")
    (hs_nal : strIn "alumni" (lowerStr (cleanText hs.text)) = false)
    (hs_cat : lookupCategory (lowerStr (cleanText hs.text)) = some c)
    (hs_std : c ∈ standardCats)
    (hpost : ∀ e ∈ post, safeAfterAlumni e) :
    ((ha :: (mid ++ hs :: post)).foldl peopleStep s).people.phd_students
        = ((ha :: (mid ++ [hs])).foldl peopleStep s).people.phd_students ∧
    ((ha :: (mid ++ hs :: post)).foldl peopleStep s).people.masters_students
        = ((ha :: (mid ++ [hs])).foldl peopleStep s).people.masters_students ∧
    ((ha :: (mid ++ hs :: post)).foldl peopleStep s).people.undergrads
        = ((ha :: (mid ++ [hs])).foldl peopleStep s).people.undergrads ∧
    ((ha :: (mid ++ hs :: post)).foldl peopleStep s).people.postdocs
        = ((ha :: (mid ++ [hs])).foldl peopleStep s).people.postdocs ∧
    ((ha :: (mid ++ hs :: post)).foldl peopleStep s).people.alumni
        = ((ha :: (mid ++ [hs])).foldl peopleStep s).people.alumni
            ++ post.filterMap memberProduced := by
  have hsplit : ha :: (mid ++ hs :: post) = (ha :: (mid ++ [hs])) ++ post := by simp
  rw [hsplit, List.foldl_append]
  have hw : ha :: (mid ++ [hs]) = ((ha :: mid) ++ [hs]) := by simp
  have hwA : ((ha :: mid).foldl peopleStep s).isAlumni = true := by
    rw [List.foldl_cons, peopleStep_alumni_header s ha ha_tag ha_ne ha_al]
    exact peopleRun_isAlumni mid _ rfl
  have hu : (ha :: (mid ++ [hs])).foldl peopleStep s
      = { ((ha :: mid).foldl peopleStep s) with current := some PCat.alumni } := by
    rw [hw, List.foldl_append, List.foldl_cons, List.foldl_nil]
    exact peopleStep_std_header _ hs c hwA hs_tag hs_ne hs_nal hs_cat hs_std
  have hrun := peopleRun_alumni post ((ha :: (mid ++ [hs])).foldl peopleStep s)
    (by rw [hu]; exact hwA) (by rw [hu]) hpost
  exact hrun

/-- Concrete traversal for the C3 witness: an alumni header, then a PhD
header, then one member line. -/
def alumniHdrElem : Elem := { tag := "h2", text := "Alumni" }

def phdHdrElem : Elem := { tag := "h3", text := "PhD Students" }

def alumniMemberElem : Elem := { tag := "li", text := "王小明 Wang Ming (21-LS) systems biology" }

def peopleInitState : PState := ⟨emptyRoster, none, false⟩

/-- Witness for C3 at a concrete traversal. -/
theorem alumni_supersedes_witness :
    ((alumniHdrElem :: ([] ++ phdHdrElem :: [alumniMemberElem])).foldl peopleStep
        peopleInitState).people.phd_students
      = ((alumniHdrElem :: ([] ++ [phdHdrElem])).foldl peopleStep
        peopleInitState).people.phd_students ∧
    ((alumniHdrElem :: ([] ++ phdHdrElem :: [alumniMemberElem])).foldl peopleStep
        peopleInitState).people.masters_students
      = ((alumniHdrElem :: ([] ++ [phdHdrElem])).foldl peopleStep
        peopleInitState).people.masters_students ∧
    ((alumniHdrElem :: ([] ++ phdHdrElem :: [alumniMemberElem])).foldl peopleStep
        peopleInitState).people.undergrads
      = ((alumniHdrElem :: ([] ++ [phdHdrElem])).foldl peopleStep
        peopleInitState).people.undergrads ∧
    ((alumniHdrElem :: ([] ++ phdHdrElem :: [alumniMemberElem])).foldl peopleStep
        peopleInitState).people.postdocs
      = ((alumniHdrElem :: ([] ++ [phdHdrElem])).foldl peopleStep
        peopleInitState).people.postdocs ∧
    ((alumniHdrElem :: ([] ++ phdHdrElem :: [alumniMemberElem])).foldl peopleStep
        peopleInitState).people.alumni
      = ((alumniHdrElem :: ([] ++ [phdHdrElem])).foldl peopleStep
        peopleInitState).people.alumni
          ++ [alumniMemberElem].filterMap memberProduced :=
  alumni_supersedes_standard_roles peopleInitState [] [alumniMemberElem]
    alumniHdrElem phdHdrElem PCat.phd (by decide) (by decide) (by decide)
    (by decide) (by decide) (by decide) (by decide) (by decide) (by decide)

end Juan
